import Mathlib

/-!
Shallow embedding of the bnf-parser library (src/bnf/core/grammar.py).

Modelling conventions:
* Python `str` input text is modelled as `List Char` (`Str`); `text.startswith(s)`
  is `List.isPrefixOf`, `text[len(s):]` is `List.drop`.
* Python dicts (`Language.rules`, `LanguageTransformation.transformation_rules`,
  the `LazySequenceTransform.cache`) are association lists with first-match
  `List.lookup`; a `KeyError` from `d[k]` is modelled by the `none` branch of
  the lookup, surfaced as an explicit error constructor.
* The lazy generators returned by the various `match` methods are modelled
  extensionally: a match computation returns `Except MatchError` of the full
  list of `(leftover, node)` pairs, in exactly the order the Python generators
  yield them.  A Python exception raised while the sequence is forced becomes
  the `Except.error` case.
* The only non-structural recursion in the Python code goes through
  `RuleReference.match`, which re-enters an arbitrary rule fetched from the
  `Language`.  The term/group/alternative-level functions therefore take a
  `MatchOracle` argument, standing for `lambda name text:
  lang.get_rule(name).match(text, lang)`; `Language.matchRule` ties the knot
  with an explicit recursion budget (`fuel`).  `MatchError.outOfFuel` is an
  embedding artifact marking exhaustion of that budget (the Python original
  simply recurses unboundedly); theorems about terminating runs are stated
  under an `.ok` hypothesis, which forces the budget to have been sufficient.
* The class `Syntax` of the source is named `SyntaxG` here because `Syntax`
  is reserved in Lean; `Rule.syntax` becomes `Rule.stx` for the same reason.
-/

namespace BNF

abbrev RuleName := String

/-- Input text: Python `str` modelled as a list of characters. -/
abbrev Str := List Char

/-- Exceptions that may escape while a match sequence is forced:
`unknownRule` is the `KeyError` raised by `Language.get_rule` (the spec's
`UnknownRuleError`), `indexError` is the `IndexError` raised by
`self.terms[term_index]` in `TermGroup._match_impl`, `outOfFuel` is the
embedding's recursion-budget marker (see module docstring). -/
inductive MatchError where
  | unknownRule (rule_name : RuleName)
  | indexError
  | outOfFuel
deriving DecidableEq

/-- Parse tree node: `LiteralNode(value)` or
`RuleNode(matched_rule, term_group_id, children)`. -/
inductive Node where
  | literalNode (value : Str)
  | ruleNode (matched_rule : RuleName) (term_group_id : Nat) (children : List Node)

/-- Terms: `Literal(text)`, `EOFTerm`, `RuleReference(rule_name)`. -/
inductive Term where
  | literal (text : Str)
  | eofTerm
  | ruleRef (rule_name : RuleName)
deriving DecidableEq

/-- `TermGroup`: one alternative, an ordered sequence of terms. -/
structure TermGroup where
  terms : List Term
deriving DecidableEq

/-- The source's `Syntax` class: the ordered alternatives of a rule. -/
structure SyntaxG where
  term_groups : List TermGroup
deriving DecidableEq

/-- `Rule`: a name bound to a syntax (field `syntax` renamed to `stx`). -/
structure Rule where
  name : RuleName
  stx : SyntaxG
deriving DecidableEq

/-- `Language`: rule registry (insertion-ordered dict as assoc list) plus the
designated root rule name. -/
structure Language where
  rules : List (RuleName × Rule)
  root_rule : RuleName
deriving DecidableEq

abbrev MatchResult := Except MatchError (List (Str × Node))

/-- Stands for the re-entry point `lang.get_rule(name).match(text, lang)`
used by `RuleReference.match`; instantiated by `Language.matchRule`. -/
abbrev MatchOracle := RuleName → Str → MatchResult

/-- `Language.get_rule`: `self.rules[rule_name]`, with the dict `KeyError`
exposed as `none`. -/
def Language.get_rule (lang : Language) (rule_name : RuleName) : Option Rule :=
  lang.rules.lookup rule_name

/-- Term matching: `Literal.match`, `EOFTerm.match` and `RuleReference.match`
from the source, as one case split over the `Term` sum type. -/
def Term.matchT (mr : MatchOracle) (t : Term) (text : Str) : MatchResult :=
  match t with
  | .literal expected =>
      .ok (if expected.isPrefixOf text then
             [(text.drop expected.length, Node.literalNode expected)]
           else [])
  | .eofTerm => .ok (if text = [] then [(text, Node.literalNode [])] else [])
  | .ruleRef rule_name => mr rule_name text

/-- The inner loop of `_match_impl`: for each `(leftover, node)` produced by
the current term, match the remaining terms against the leftover (the
continuation `f`, which `TermGroup.matchImpl` instantiates with
`self._match_impl(·, next_term_index, lang)`) and prepend the node to every
resulting child list. -/
def TermGroup.matchCont (f : Str → Except MatchError (List (Str × List Node))) :
    List (Str × Node) → Except MatchError (List (Str × List Node))
  | [] => .ok []
  | (leftover, node) :: more =>
      match f leftover with
      | .error e => .error e
      | .ok inner =>
          match TermGroup.matchCont f more with
          | .error e => .error e
          | .ok tail => .ok (inner.map (fun q => (q.1, node :: q.2)) ++ tail)

/-- `TermGroup._match_impl(text, term_index, lang)`, with the index encoded as
the suffix `terms` of the term list still to be matched.  The empty suffix is
only reachable from a direct call on an empty `TermGroup`, where the Python
code raises `IndexError` at `self.terms[term_index]`. -/
def TermGroup.matchImpl (mr : MatchOracle) : List Term → Str →
    Except MatchError (List (Str × List Node))
  | [], _ => .error .indexError
  | [term], text =>
      match Term.matchT mr term text with
      | .error e => .error e
      | .ok ms => .ok (ms.map (fun p => (p.1, [p.2])))
  | term :: next :: rest, text =>
      match Term.matchT mr term text with
      | .error e => .error e
      | .ok ms => TermGroup.matchCont (TermGroup.matchImpl mr (next :: rest)) ms

/-- `TermGroup.match(text, lang)`: starts `_match_impl` at term index 0. -/
def TermGroup.matchTG (mr : MatchOracle) (tg : TermGroup) (text : Str) :
    Except MatchError (List (Str × List Node)) :=
  TermGroup.matchImpl mr tg.terms text

/-- The loop of `Syntax.match`: try each term group, in order, tagging its
results with the group's index, and concatenate. -/
def SyntaxG.matchGroups (mr : MatchOracle) (tgs : List TermGroup) (index : Nat)
    (rule_name : RuleName) (text : Str) : MatchResult :=
  match tgs with
  | [] => .ok []
  | tg :: rest =>
      match TermGroup.matchTG mr tg text with
      | .error e => .error e
      | .ok ms =>
          match SyntaxG.matchGroups mr rest (index + 1) rule_name text with
          | .error e => .error e
          | .ok tail =>
              .ok (ms.map (fun p => (p.1, Node.ruleNode rule_name index p.2)) ++ tail)

/-- `Syntax.match(text, rule_name, lang)`. -/
def SyntaxG.matchS (mr : MatchOracle) (s : SyntaxG) (rule_name : RuleName)
    (text : Str) : MatchResult :=
  SyntaxG.matchGroups mr s.term_groups 0 rule_name text

/-- `Rule.match(text, lang)`: pass-through to the rule's syntax. -/
def Rule.matchR (mr : MatchOracle) (r : Rule) (text : Str) : MatchResult :=
  SyntaxG.matchS mr r.stx r.name text

/-- `lang.get_rule(rule_name).match(text, lang)` — the body of
`RuleReference.match` — with an explicit recursion budget. -/
def Language.matchRule (lang : Language) : Nat → RuleName → Str → MatchResult
  | 0, _, _ => .error .outOfFuel
  | fuel + 1, rule_name, text =>
      match lang.get_rule rule_name with
      | none => .error (.unknownRule rule_name)
      | some r => Rule.matchR (lang.matchRule fuel) r text

/-- `Language._parse_all(text)`: fetch the root rule (a `KeyError` here means
the root rule name is unregistered), run its match, keep only the nodes. -/
def Language.parseAll (lang : Language) (fuel : Nat) (text : Str) :
    Except MatchError (List Node) :=
  match lang.get_rule lang.root_rule with
  | none => .error (.unknownRule lang.root_rule)
  | some root =>
      match Rule.matchR (lang.matchRule fuel) root text with
      | .error e => .error e
      | .ok ms => .ok (ms.map Prod.snd)

/-- Failure modes of `Language.parse`.  The Python `node, = matches` unpacking
raises two distinguishable failures: `not enough values to unpack` when the
candidate sequence is empty (the spec's `NoParseError`) and `too many values
to unpack` when it has at least two elements (the spec's
`AmbiguousParseError`); an exception escaping the enumeration itself
propagates unchanged (`matchFailure`). -/
inductive ParseError where
  | matchFailure (e : MatchError)
  | noParse
  | ambiguousParse
deriving DecidableEq

/-- `Language.parse(text)`: requires the candidate sequence to hold exactly
one node. -/
def Language.parse (lang : Language) (fuel : Nat) (text : Str) :
    Except ParseError Node :=
  match lang.parseAll fuel text with
  | .error e => .error (.matchFailure e)
  | .ok [] => .error .noParse
  | .ok [node] => .ok node
  | .ok (_ :: _ :: _) => .error .ambiguousParse

mutual

/-- `RuleNode.__str__` / `LiteralNode.__str__`: a literal node renders as its
stored value, a rule node as the concatenation of its children's renderings. -/
def Node.str : Node → Str
  | .literalNode value => value
  | .ruleNode _ _ children => Node.strList children

/-- Concatenation of the renderings of a list of nodes
(`''.join(str(c) for c in children)`). -/
def Node.strList : List Node → Str
  | [] => []
  | c :: cs => Node.str c ++ Node.strList cs

end

/-! ## Transformation engine

The accumulator functions registered in a `TermGroupTransformation` are
arbitrary Python callables receiving a `LazySequenceTransform` over the
node's children.  At the engine level they are modelled as functions of the
interface that view exposes: an indexed access function (`TfView`, the
behaviour of `lazys[i]`, with reading past the end raising `IndexError`)
together with the view's length.  The mutable per-invocation cache of
`LazySequenceTransform` is modelled separately and explicitly below
(`lazyGetitemInt`); for a deterministic child transform the cache changes
only the number of recursive `transform` calls, not their results. -/

/-- Exceptions of the transformation engine: `keyError` is the dict
`KeyError` from `transformation_rules[matched_rule]` (the spec's
`MissingTransformationError`), `indexError` is a Python `IndexError`
(out-of-range `tf_term_groups[index]` or out-of-range child access),
`outOfFuel` is the embedding's recursion-budget marker. -/
inductive TfError where
  | keyError (rule_name : RuleName)
  | indexError
  | outOfFuel
deriving DecidableEq

/-- Model of the dynamically-typed (`typing.Any`) transformed values:
`vNone` is Python `None` (in particular the implicit return value of the
`except IndexError` handler in `SyntaxTransformation.transform`), `vStr` a
string (the result of `LiteralNode.transform`). -/
inductive TValue where
  | vNone
  | vStr (s : Str)
deriving DecidableEq

abbrev TfResult := Except TfError TValue

/-- The access interface a `LazySequenceTransform` presents to an
accumulator: `lazys[i]` for integer `i`. -/
abbrev TfView := Nat → TfResult

/-- The recursive entry point `node.transform(lang)` as seen from inside an
accumulator invocation. -/
abbrev TfOracle := Node → TfResult

/-- `TermGroupTransformation`: holds the user-supplied accumulator. -/
structure TermGroupTransformation where
  accumulator : TfView → Nat → TfResult

/-- `SyntaxTransformation`: accumulators indexed by alternative. -/
structure SyntaxTransformation where
  tf_term_groups : List TermGroupTransformation

/-- `RuleTransformation` (field `tf_syntax` renamed to `tf_stx`). -/
structure RuleTransformation where
  rule_name : RuleName
  tf_stx : SyntaxTransformation

/-- `LanguageTransformation`: rule-name-indexed registry of rule
transformations. -/
structure LanguageTransformation where
  transformation_rules : List (RuleName × RuleTransformation)

/-- The indexed-access behaviour of `LazySequenceTransform.create(values,
lang)` as exposed to an accumulator: `lazys[i]` transforms child `i`, and
raises `IndexError` past the end (`lazys.initial_values[i]`). -/
def lazyView (tr : TfOracle) (values : List Node) : TfView := fun i =>
  match values.get? i with
  | some c => tr c
  | none => .error .indexError

/-- `TermGroupTransformation.transform(values, lang)`: invoke the
accumulator on a fresh lazy view over the children. -/
def TermGroupTransformation.transformTGT (tr : TfOracle)
    (tgt : TermGroupTransformation) (values : List Node) : TfResult :=
  tgt.accumulator (lazyView tr values) values.length

/-- `SyntaxTransformation.transform(values, index, lang)`: the source wraps
the whole dispatch in `try ... except IndexError`, prints diagnostics in the
handler and implicitly returns `None`; so both an out-of-range `index` and
an `IndexError` escaping the accumulator yield `None` instead of an error. -/
def SyntaxTransformation.transformST (tr : TfOracle) (st : SyntaxTransformation)
    (values : List Node) (index : Nat) : TfResult :=
  match st.tf_term_groups.get? index with
  | none => .ok TValue.vNone
  | some tgt =>
      match TermGroupTransformation.transformTGT tr tgt values with
      | .error .indexError => .ok TValue.vNone
      | r => r

/-- `RuleTransformation.transform(rule_node, lang)`: selects the accumulator
by the node's recorded `term_group_id`. -/
def RuleTransformation.transformRT (tr : TfOracle) (rt : RuleTransformation)
    (children : List Node) (term_group_id : Nat) : TfResult :=
  SyntaxTransformation.transformST tr rt.tf_stx children term_group_id

/-- `Node.transform(lang)`: a literal node returns its stored string; a rule
node looks up its rule's transformation (`KeyError` if absent) and delegates.
The recursion budget decreases at each rule-node dispatch. -/
def Node.transform (lt : LanguageTransformation) : Nat → Node → TfResult
  | _, .literalNode value => .ok (TValue.vStr value)
  | 0, .ruleNode _ _ _ => .error .outOfFuel
  | fuel + 1, .ruleNode matched_rule term_group_id children =>
      match lt.transformation_rules.lookup matched_rule with
      | none => .error (.keyError matched_rule)
      | some rt =>
          RuleTransformation.transformRT (Node.transform lt fuel) rt children
            term_group_id

/-- `LanguageTransformation.transform(rule_node)`. -/
def LanguageTransformation.transformLT (lt : LanguageTransformation)
    (fuel : Nat) (node : Node) : TfResult :=
  Node.transform lt fuel node

/-- `LazySequenceTransform` with its mutable per-invocation cache made
explicit (a dict from integer index to computed value). -/
structure LazySequenceTransform where
  initial_values : List Node
  lang : LanguageTransformation
  cache : List (Nat × TValue)

/-- `LazySequenceTransform.create(nodes, lang)`: fresh empty cache. -/
def LazySequenceTransform.create (nodes : List Node)
    (lt : LanguageTransformation) : LazySequenceTransform :=
  ⟨nodes, lt, []⟩

/-- `_lazy_getitem_int(i, lazys)`: on a cache miss, transform
`lazys.initial_values[i]` and store the result under `i`; on a hit, return
the stored value.  The returned state is the updated view, and the final
component counts the `Node.transform` invocations this access performed
(1 on a miss, 0 on a hit), making the memoization contract observable. -/
def lazyGetitemInt (fuel : Nat) (lazys : LazySequenceTransform) (i : Nat) :
    Except TfError (TValue × LazySequenceTransform × Nat) :=
  match lazys.cache.lookup i with
  | some v => .ok (v, lazys, 0)
  | none =>
      match lazys.initial_values.get? i with
      | none => .error .indexError
      | some c =>
          match Node.transform lazys.lang fuel c with
          | .error e => .error e
          | .ok v => .ok (v, { lazys with cache := (i, v) :: lazys.cache }, 1)

/-- States of a `LazySequenceTransform` reachable from `a` by performing
further (successful) `_lazy_getitem_int` accesses within the same
accumulator invocation. -/
inductive LazyReach : LazySequenceTransform → LazySequenceTransform → Prop
  | refl (l : LazySequenceTransform) : LazyReach l l
  | step {a b c : LazySequenceTransform} (fuel j : Nat) (w : TValue) (k : Nat) :
      LazyReach a b → lazyGetitemInt fuel b j = .ok (w, c, k) → LazyReach a c

/-! ## Structural equality (the `__eq__` methods)

The `__eq__` chain compares languages deeply: same root rule name, and the
rule dicts equal as dicts (same key set, values compared with `Rule.__eq__`,
insertion order irrelevant).  Dict equality is rendered on assoc lists as
lookup-extensionality over the union of the key sets. -/

/-- `Literal.__eq__` / `EOFTerm.__eq__` / `RuleReference.__eq__`, including
their `isinstance` checks, as one case split. -/
def Term.eqT : Term → Term → Bool
  | .literal t1, .literal t2 => t1 == t2
  | .eofTerm, .eofTerm => true
  | .ruleRef n1, .ruleRef n2 => n1 == n2
  | _, _ => false

/-- Elementwise comparison of term tuples (Python tuple `==`). -/
def termsEq : List Term → List Term → Bool
  | [], [] => true
  | a :: as, b :: bs => Term.eqT a b && termsEq as bs
  | _, _ => false

/-- `TermGroup.__eq__`. -/
def TermGroup.eqTG (a b : TermGroup) : Bool :=
  termsEq a.terms b.terms

/-- Elementwise comparison of term-group tuples. -/
def termGroupsEq : List TermGroup → List TermGroup → Bool
  | [], [] => true
  | a :: as, b :: bs => TermGroup.eqTG a b && termGroupsEq as bs
  | _, _ => false

/-- `Syntax.__eq__`. -/
def SyntaxG.eqS (a b : SyntaxG) : Bool :=
  termGroupsEq a.term_groups b.term_groups

/-- `Rule.__eq__`. -/
def Rule.eqR (a b : Rule) : Bool :=
  a.name == b.name && SyntaxG.eqS a.stx b.stx

/-- Python dict equality for the rule registries: every key of either dict
is present in both and bound to `Rule.__eq__`-equal rules. -/
def rulesEq (d1 d2 : List (RuleName × Rule)) : Bool :=
  (d1.map Prod.fst ++ d2.map Prod.fst).all fun k =>
    match d1.lookup k, d2.lookup k with
    | some r1, some r2 => Rule.eqR r1 r2
    | some _, none => false
    | none, some _ => false
    | none, none => true

/-- `Language.__eq__`: same root rule and equal rule dicts (the separate
key-set check of the source is subsumed by dict equality). -/
def Language.eqL (a b : Language) : Bool :=
  a.root_rule == b.root_rule && rulesEq a.rules b.rules

/-! ## Spec-side formulation of `Syntax.match` (for the refinement claim C5)

The spec describes `Syntax.match` in two stages: first run each term group's
match (in registration order), then wrap alternative `i`'s results with index
`i` and concatenate alternative 0's results, then alternative 1's, etc.  The
following definitions follow those words; the claim compares them with the
single-pass `SyntaxG.matchS` above. -/

/-- Run each term group's match, in registration order. -/
def runGroups (mr : MatchOracle) (text : Str) :
    List TermGroup → Except MatchError (List (List (Str × List Node)))
  | [] => .ok []
  | tg :: rest =>
      match TermGroup.matchTG mr tg text with
      | .error e => .error e
      | .ok ms =>
          match runGroups mr text rest with
          | .error e => .error e
          | .ok tail => .ok (ms :: tail)

/-- Wrap each successful `(leftover, children)` of alternative `index` as
`(leftover, RuleNode(rule_name, index, children))` and concatenate the
alternatives' sequences in order. -/
def wrapAlternatives (rule_name : RuleName) (index : Nat) :
    List (List (Str × List Node)) → List (Str × Node)
  | [] => []
  | ms :: rest =>
      ms.map (fun p => (p.1, Node.ruleNode rule_name index p.2))
        ++ wrapAlternatives rule_name (index + 1) rest

/-- The spec's description of `Syntax.match`, assembled from the two stages. -/
def syntaxMatchSpec (mr : MatchOracle) (s : SyntaxG) (rule_name : RuleName)
    (text : Str) : MatchResult :=
  match runGroups mr text s.term_groups with
  | .error e => .error e
  | .ok rss => .ok (wrapAlternatives rule_name 0 rss)

/-- Round-trip property of a match oracle: every pair it yields renders back,
together with its leftover, to the input text. -/
def OracleRoundTrip (mr : MatchOracle) : Prop :=
  ∀ rule_name text l, mr rule_name text = .ok l →
    ∀ p ∈ l, Node.str p.2 ++ p.1 = text

/-! ## Basic lemmas -/

theorem isPrefixOf_append_drop :
    ∀ (e t : Str), e.isPrefixOf t = true → e ++ t.drop e.length = t
  | [], t, _ => by simp
  | a :: as, [], h => by simp [List.isPrefixOf] at h
  | a :: as, b :: bs, h => by
      simp only [List.isPrefixOf, Bool.and_eq_true, beq_iff_eq] at h
      obtain ⟨rfl, h2⟩ := h
      simpa using isPrefixOf_append_drop as bs h2

/-- C9: matching a `TermGroup` built from zero terms raises the
out-of-range `IndexError` of `self.terms[0]` for every input text, instead
of yielding an empty sequence of matches. -/
theorem empty_term_group_match_raises (mr : MatchOracle) (text : Str) :
    TermGroup.matchTG mr (TermGroup.mk []) text = .error .indexError := rfl

/-- C10: an empty literal matches everywhere: for every input text it yields
exactly one pair, consuming nothing; on empty input its result coincides
with a successful `EOFTerm` match. -/
theorem empty_literal_matches_everywhere (mr : MatchOracle) (text : Str) :
    Term.matchT mr (Term.literal []) text = .ok [(text, Node.literalNode [])]
    ∧ Term.matchT mr (Term.literal []) [] = Term.matchT mr Term.eofTerm [] :=
  ⟨by simp [Term.matchT], rfl⟩

/-- C6: `Literal(expected)` yields exactly one pair — the input with the
`expected`-length prefix removed, paired with `LiteralNode(expected)` — when
the input starts with `expected` (so that `expected ++ leftover` restores the
input), and yields nothing otherwise. -/
theorem literal_match_behaviour (mr : MatchOracle) (expected text : Str) :
    (expected.isPrefixOf text = true →
      Term.matchT mr (Term.literal expected) text
        = .ok [(text.drop expected.length, Node.literalNode expected)]
      ∧ expected ++ text.drop expected.length = text)
    ∧ (expected.isPrefixOf text = false →
      Term.matchT mr (Term.literal expected) text = .ok []) := by
  constructor
  · intro h
    exact ⟨by simp [Term.matchT, h], isPrefixOf_append_drop expected text h⟩
  · intro h
    simp [Term.matchT, h]

theorem literal_match_behaviour_witness :
    Term.matchT (fun _ _ => Except.error MatchError.outOfFuel)
        (Term.literal ['a']) ['a', 'b']
      = .ok [(['b'], Node.literalNode ['a'])]
    ∧ ['a'] ++ ['b'] = ['a', 'b'] :=
  (literal_match_behaviour (fun _ _ => Except.error MatchError.outOfFuel)
    ['a'] ['a', 'b']).1 (by decide)

/-- C1: when the enumeration of the root rule's candidates succeeds,
`Language.parse` returns the single node if there is exactly one candidate,
fails with the no-parse failure on zero candidates and with the ambiguity
failure on two or more; the two failure kinds are distinct. -/
theorem parse_requires_exactly_one (lang : Language) (fuel : Nat) (text : Str)
    (nodes : List Node) (h : lang.parseAll fuel text = .ok nodes) :
    (∀ node, nodes = [node] → lang.parse fuel text = .ok node)
    ∧ (nodes = [] → lang.parse fuel text = .error .noParse)
    ∧ (2 ≤ nodes.length → lang.parse fuel text = .error .ambiguousParse)
    ∧ ParseError.noParse ≠ ParseError.ambiguousParse := by
  refine ⟨?_, ?_, ?_, by simp⟩
  · intro node hn
    subst hn
    simp [Language.parse, h]
  · intro hn
    subst hn
    simp [Language.parse, h]
  · intro hn
    cases nodes with
    | nil => simp at hn
    | cons n1 t =>
        cases t with
        | nil => simp at hn
        | cons n2 r => simp [Language.parse, h]

theorem parse_requires_exactly_one_witness :
    Language.parse
        (Language.mk
          [("R", Rule.mk "R" (SyntaxG.mk
            [TermGroup.mk [Term.literal ['a']],
             TermGroup.mk [Term.literal ['a']]]))] "R") 0 ['a']
      = .error .ambiguousParse :=
  (parse_requires_exactly_one
    (Language.mk
      [("R", Rule.mk "R" (SyntaxG.mk
        [TermGroup.mk [Term.literal ['a']],
         TermGroup.mk [Term.literal ['a']]]))] "R") 0 ['a']
    [Node.ruleNode "R" 0 [Node.literalNode ['a']],
     Node.ruleNode "R" 1 [Node.literalNode ['a']]] rfl).2.2.1 (by decide)

/-- C2: contrary to the claim, an out-of-range `term_group_id` does not
propagate an `AlternativeIndexError`: the `except IndexError` handler in
`SyntaxTransformation.transform` swallows it and `transform` returns the
`None`-like default.  With one registered accumulator for rule `R`, a node
recorded with `term_group_id = 1` transforms to `None`, while the same node
with `term_group_id = 0` transforms normally. -/
theorem transform_index_mismatch_returns_none :
    Node.transform
        (LanguageTransformation.mk
          [("R", RuleTransformation.mk "R"
            (SyntaxTransformation.mk
              [TermGroupTransformation.mk (fun view _ => view 0)]))])
        1 (Node.ruleNode "R" 1 [Node.literalNode ['a']]) = .ok TValue.vNone
    ∧ Node.transform
        (LanguageTransformation.mk
          [("R", RuleTransformation.mk "R"
            (SyntaxTransformation.mk
              [TermGroupTransformation.mk (fun view _ => view 0)]))])
        1 (Node.ruleNode "R" 0 [Node.literalNode ['a']])
      = .ok (TValue.vStr ['a']) :=
  ⟨rfl, rfl⟩

/-- C7: a `RuleReference` to a name absent from the rule registry fails with
the unknown-rule error carrying that name (the `KeyError` of
`Language.get_rule`), rather than yielding an empty match sequence. -/
theorem unknown_rule_reference_fails (lang : Language) (rule_name : RuleName)
    (h : lang.get_rule rule_name = none) (fuel : Nat) (text : Str) :
    Term.matchT (lang.matchRule (fuel + 1)) (Term.ruleRef rule_name) text
      = .error (.unknownRule rule_name) := by
  simp [Term.matchT, Language.matchRule, h]

theorem unknown_rule_reference_fails_witness :
    Term.matchT
        (Language.matchRule
          (Language.mk [("A", Rule.mk "A" (SyntaxG.mk []))] "A") 1)
        (Term.ruleRef "B") ['x']
      = .error (.unknownRule "B") :=
  unknown_rule_reference_fails
    (Language.mk [("A", Rule.mk "A" (SyntaxG.mk []))] "A") "B" (by decide) 0 ['x']

/-! ## Lazy-view memoization (C4) -/

/-- A successful `_lazy_getitem_int` access leaves the underlying children and
transformation registry untouched and only ever adds cache entries: every
binding visible before the access is still visible, unchanged, after it. -/
theorem lazyGetitemInt_preserves {fuel j : Nat} {w : TValue} {k : Nat}
    {b c : LazySequenceTransform}
    (h : lazyGetitemInt fuel b j = .ok (w, c, k)) :
    c.initial_values = b.initial_values ∧ c.lang = b.lang ∧
    ∀ i v, b.cache.lookup i = some v → c.cache.lookup i = some v := by
  unfold lazyGetitemInt at h
  cases hc : b.cache.lookup j with
  | some u =>
      simp only [hc, Except.ok.injEq, Prod.mk.injEq] at h
      obtain ⟨-, rfl, -⟩ := h
      exact ⟨rfl, rfl, fun _ _ hv => hv⟩
  | none =>
      simp only [hc] at h
      cases hg : b.initial_values.get? j with
      | none => simp only [hg] at h; cases h
      | some child =>
          simp only [hg] at h
          cases ht : Node.transform b.lang fuel child with
          | error e => simp only [ht] at h; cases h
          | ok u =>
              simp only [ht, Except.ok.injEq, Prod.mk.injEq] at h
              obtain ⟨-, rfl, -⟩ := h
              refine ⟨rfl, rfl, fun i v hv => ?_⟩
              have hij : (i == j) = false := by
                cases hb : i == j with
                | false => rfl
                | true =>
                    rw [eq_of_beq hb, hc] at hv
                    cases hv
              simpa [List.lookup, hij] using hv

/-- Bindings established in a lazy view survive any further successful
accesses performed within the same accumulator invocation. -/
theorem lazyReach_preserves {a b : LazySequenceTransform} (h : LazyReach a b) :
    b.initial_values = a.initial_values ∧ b.lang = a.lang ∧
    ∀ i v, a.cache.lookup i = some v → b.cache.lookup i = some v := by
  induction h with
  | refl => exact ⟨rfl, rfl, fun _ _ hv => hv⟩
  | step fuel j w k hr hacc ih =>
      obtain ⟨h1, h2, h3⟩ := lazyGetitemInt_preserves hacc
      exact ⟨h1.trans ih.1, h2.trans ih.2.1,
        fun i v hv => h3 i v (ih.2.2 i v hv)⟩

/-- After a successful access at `i`, the cache binds `i` to the value that
was returned. -/
theorem lazyGetitemInt_caches {fuel : Nat} {lazys l1 : LazySequenceTransform}
    {i : Nat} {v : TValue} {k : Nat}
    (h : lazyGetitemInt fuel lazys i = .ok (v, l1, k)) :
    l1.cache.lookup i = some v := by
  unfold lazyGetitemInt at h
  cases hc : lazys.cache.lookup i with
  | some u =>
      simp only [hc, Except.ok.injEq, Prod.mk.injEq] at h
      obtain ⟨rfl, rfl, -⟩ := h
      exact hc
  | none =>
      simp only [hc] at h
      cases hg : lazys.initial_values.get? i with
      | none => simp only [hg] at h; cases h
      | some child =>
          simp only [hg] at h
          cases ht : Node.transform lazys.lang fuel child with
          | error e => simp only [ht] at h; cases h
          | ok u =>
              simp only [ht, Except.ok.injEq, Prod.mk.injEq] at h
              obtain ⟨rfl, rfl, -⟩ := h
              simp [List.lookup]

/-- C4: a first access to index `i` performs the child's transform exactly
once (on a cache miss, exactly one `Node.transform` invocation, and the
result is cached); after it, any later access to `i` in the same accumulator
invocation — regardless of accesses to other indices in between — returns
the same value from the cache with zero further transform invocations. -/
theorem lazy_getitem_memoizes (fuel : Nat)
    (lazys l1 l2 : LazySequenceTransform) (i : Nat) (v : TValue) (k : Nat)
    (h : lazyGetitemInt fuel lazys i = .ok (v, l1, k))
    (hr : LazyReach l1 l2) :
    (∀ fuel2, lazyGetitemInt fuel2 l2 i = .ok (v, l2, 0))
    ∧ (lazys.cache.lookup i = none →
        k = 1 ∧ ∃ child, lazys.initial_values.get? i = some child
          ∧ Node.transform lazys.lang fuel child = .ok v
          ∧ l1.cache = (i, v) :: lazys.cache)
    ∧ (∀ w, lazys.cache.lookup i = some w → v = w ∧ l1 = lazys ∧ k = 0) := by
  have hbound : l2.cache.lookup i = some v :=
    (lazyReach_preserves hr).2.2 i v (lazyGetitemInt_caches h)
  refine ⟨fun fuel2 => by simp [lazyGetitemInt, hbound], ?_, ?_⟩
  · intro hc
    unfold lazyGetitemInt at h
    simp only [hc] at h
    cases hg : lazys.initial_values.get? i with
    | none => simp only [hg] at h; cases h
    | some child =>
        simp only [hg] at h
        cases ht : Node.transform lazys.lang fuel child with
        | error e => simp only [ht] at h; cases h
        | ok u =>
            simp only [ht, Except.ok.injEq, Prod.mk.injEq] at h
            obtain ⟨rfl, rfl, rfl⟩ := h
            exact ⟨rfl, child, by simp [hg], by simp [ht], by simp⟩
  · intro w hc
    unfold lazyGetitemInt at h
    simp only [hc, Except.ok.injEq, Prod.mk.injEq] at h
    obtain ⟨rfl, rfl, rfl⟩ := h
    exact ⟨rfl, rfl, rfl⟩

theorem lazy_getitem_memoizes_witness :
    lazyGetitemInt 7
        (LazySequenceTransform.mk [Node.literalNode ['a']]
          (LanguageTransformation.mk []) [(0, TValue.vStr ['a'])]) 0
      = .ok (TValue.vStr ['a'],
          LazySequenceTransform.mk [Node.literalNode ['a']]
            (LanguageTransformation.mk []) [(0, TValue.vStr ['a'])], 0) :=
  (lazy_getitem_memoizes 0
    (LazySequenceTransform.create [Node.literalNode ['a']]
      (LanguageTransformation.mk []))
    (LazySequenceTransform.mk [Node.literalNode ['a']]
      (LanguageTransformation.mk []) [(0, TValue.vStr ['a'])])
    (LazySequenceTransform.mk [Node.literalNode ['a']]
      (LanguageTransformation.mk []) [(0, TValue.vStr ['a'])])
    0 (TValue.vStr ['a']) 1 rfl (LazyReach.refl _)).1 7

/-! ## Alternation order and alternative indices (C5) -/

theorem matchGroups_eq_spec (mr : MatchOracle) (rule_name : RuleName)
    (text : Str) :
    ∀ (tgs : List TermGroup) (index : Nat),
      SyntaxG.matchGroups mr tgs index rule_name text
        = Except.map (wrapAlternatives rule_name index) (runGroups mr text tgs) := by
  intro tgs
  induction tgs with
  | nil => intro index; rfl
  | cons tg rest ih =>
      intro index
      simp only [SyntaxG.matchGroups, runGroups]
      cases TermGroup.matchTG mr tg text with
      | error e => rfl
      | ok ms =>
          rw [ih (index + 1)]
          cases runGroups mr text rest with
          | error e => rfl
          | ok rss => simp [wrapAlternatives, Except.map]

theorem matchGroups_node_shape (mr : MatchOracle) (rule_name : RuleName)
    (text : Str) :
    ∀ (tgs : List TermGroup) (index : Nat) (l : List (Str × Node)),
      SyntaxG.matchGroups mr tgs index rule_name text = .ok l →
      ∀ p ∈ l, ∃ i children, p.2 = Node.ruleNode rule_name i children
        ∧ index ≤ i ∧ i < index + tgs.length := by
  intro tgs
  induction tgs with
  | nil =>
      intro index l h
      simp only [SyntaxG.matchGroups, Except.ok.injEq] at h
      subst h
      intro p hp
      simp at hp
  | cons tg rest ih =>
      intro index l h
      simp only [SyntaxG.matchGroups] at h
      cases hm : TermGroup.matchTG mr tg text with
      | error e => simp only [hm] at h; cases h
      | ok ms =>
          simp only [hm] at h
          cases hg : SyntaxG.matchGroups mr rest (index + 1) rule_name text with
          | error e => simp only [hg] at h; cases h
          | ok tail =>
              simp only [hg, Except.ok.injEq] at h
              subst h
              intro p hp
              rcases List.mem_append.1 hp with hp | hp
              · obtain ⟨q, hq, rfl⟩ := List.mem_map.1 hp
                exact ⟨index, q.2, rfl, Nat.le_refl index, by simp⟩
              · obtain ⟨i, children, hpi, hle, hlt⟩ := ih (index + 1) tail hg p hp
                refine ⟨i, children, hpi, by omega, by simp; omega⟩

/-- C5: `Syntax.match` yields exactly the spec-side enumeration — run each
term group in registration order, wrap alternative `i`'s results as
`RuleNode(rule_name, i, children)`, concatenate alternative 0's results,
then alternative 1's, etc. — and consequently every node it produces is a
`RuleNode` for the given rule with `term_group_id` in `[0, N)`. -/
theorem syntax_match_enumerates_alternatives (mr : MatchOracle) (s : SyntaxG)
    (rule_name : RuleName) (text : Str) :
    SyntaxG.matchS mr s rule_name text = syntaxMatchSpec mr s rule_name text
    ∧ (∀ l, SyntaxG.matchS mr s rule_name text = .ok l →
        ∀ p ∈ l, ∃ i children, p.2 = Node.ruleNode rule_name i children
          ∧ i < s.term_groups.length) := by
  constructor
  · rw [SyntaxG.matchS, matchGroups_eq_spec mr rule_name text s.term_groups 0,
      syntaxMatchSpec]
    cases runGroups mr text s.term_groups with
    | error e => rfl
    | ok rss => rfl
  · intro l h p hp
    obtain ⟨i, children, hpi, -, hlt⟩ :=
      matchGroups_node_shape mr rule_name text s.term_groups 0 l h p hp
    exact ⟨i, children, hpi, by omega⟩

theorem syntax_match_enumerates_alternatives_witness :
    ∃ i children,
      Node.ruleNode "R" 0 [Node.literalNode ['a']] = Node.ruleNode "R" i children
      ∧ i < 1 :=
  (syntax_match_enumerates_alternatives
      (fun _ _ => Except.error MatchError.outOfFuel)
      (SyntaxG.mk [TermGroup.mk [Term.literal ['a']]]) "R" ['a']).2
    [(([] : Str), Node.ruleNode "R" 0 [Node.literalNode ['a']])] rfl
    (([] : Str), Node.ruleNode "R" 0 [Node.literalNode ['a']]) (by simp)

/-! ## Round trip (C3) -/

theorem matchT_round_trip (mr : MatchOracle) (hmr : OracleRoundTrip mr)
    (t : Term) (text : Str) (l : List (Str × Node))
    (h : Term.matchT mr t text = .ok l) :
    ∀ p ∈ l, Node.str p.2 ++ p.1 = text := by
  cases t with
  | literal expected =>
      simp only [Term.matchT, Except.ok.injEq] at h
      subst h
      cases hpre : expected.isPrefixOf text with
      | true =>
          intro p hp
          simp only [hpre, if_pos] at hp
          simp only [List.mem_singleton] at hp
          subst hp
          simpa [Node.str] using isPrefixOf_append_drop expected text hpre
      | false =>
          intro p hp
          simp [hpre] at hp
  | eofTerm =>
      simp only [Term.matchT, Except.ok.injEq] at h
      subst h
      by_cases htext : text = []
      · intro p hp
        simp only [htext, if_pos] at hp
        simp only [List.mem_singleton] at hp
        subst hp
        simp [Node.str, htext]
      · intro p hp
        simp [htext] at hp
  | ruleRef rule_name => exact hmr rule_name text l h

theorem matchCont_round_trip
    (f : Str → Except MatchError (List (Str × List Node)))
    (hf : ∀ leftover l, f leftover = .ok l →
      ∀ q ∈ l, Node.strList q.2 ++ q.1 = leftover)
    (text0 : Str) :
    ∀ (ms : List (Str × Node)), (∀ p ∈ ms, Node.str p.2 ++ p.1 = text0) →
      ∀ l, TermGroup.matchCont f ms = .ok l →
        ∀ q ∈ l, Node.strList q.2 ++ q.1 = text0 := by
  intro ms
  induction ms with
  | nil =>
      intro _ l h
      simp only [TermGroup.matchCont, Except.ok.injEq] at h
      subst h
      intro q hq
      simp at hq
  | cons p more ih =>
      rcases p with ⟨leftover, node⟩
      intro hms l h
      simp only [TermGroup.matchCont] at h
      cases hin : f leftover with
      | error e => simp only [hin] at h; cases h
      | ok inner =>
          simp only [hin] at h
          cases hrec : TermGroup.matchCont f more with
          | error e => simp only [hrec] at h; cases h
          | ok tail =>
              simp only [hrec, Except.ok.injEq] at h
              subst h
              intro q hq
              rcases List.mem_append.1 hq with hq | hq
              · obtain ⟨r, hr, rfl⟩ := List.mem_map.1 hq
                have h1 : Node.strList r.2 ++ r.1 = leftover :=
                  hf leftover inner hin r hr
                have h2 : Node.str node ++ leftover = text0 :=
                  hms (leftover, node) (List.mem_cons_self _ _)
                simp only [Node.strList, List.append_assoc, h1]
                exact h2
              · exact ih (fun p hp => hms p (List.mem_cons_of_mem _ hp))
                  tail hrec q hq

theorem matchImpl_round_trip (mr : MatchOracle) (hmr : OracleRoundTrip mr) :
    ∀ (terms : List Term) (text : Str) (l : List (Str × List Node)),
      TermGroup.matchImpl mr terms text = .ok l →
      ∀ q ∈ l, Node.strList q.2 ++ q.1 = text := by
  intro terms
  induction terms with
  | nil =>
      intro text l h
      simp [TermGroup.matchImpl] at h
  | cons term rest ih =>
      cases rest with
      | nil =>
          intro text l h
          simp only [TermGroup.matchImpl] at h
          cases hmt : Term.matchT mr term text with
          | error e => simp only [hmt] at h; cases h
          | ok ms =>
              simp only [hmt, Except.ok.injEq] at h
              subst h
              intro q hq
              obtain ⟨p, hp, rfl⟩ := List.mem_map.1 hq
              have := matchT_round_trip mr hmr term text ms hmt p hp
              simpa [Node.strList] using this
      | cons next rest' =>
          intro text l h
          simp only [TermGroup.matchImpl] at h
          cases hmt : Term.matchT mr term text with
          | error e => simp only [hmt] at h; cases h
          | ok ms =>
              simp only [hmt] at h
              exact matchCont_round_trip (TermGroup.matchImpl mr (next :: rest'))
                (fun leftover l' h' => ih leftover l' h') text ms
                (matchT_round_trip mr hmr term text ms hmt) l h

theorem matchGroups_round_trip (mr : MatchOracle) (hmr : OracleRoundTrip mr)
    (rule_name : RuleName) (text : Str) :
    ∀ (tgs : List TermGroup) (index : Nat) (l : List (Str × Node)),
      SyntaxG.matchGroups mr tgs index rule_name text = .ok l →
      ∀ p ∈ l, Node.str p.2 ++ p.1 = text := by
  intro tgs
  induction tgs with
  | nil =>
      intro index l h
      simp only [SyntaxG.matchGroups, Except.ok.injEq] at h
      subst h
      intro p hp
      simp at hp
  | cons tg rest ih =>
      intro index l h
      simp only [SyntaxG.matchGroups] at h
      cases hm : TermGroup.matchTG mr tg text with
      | error e => simp only [hm] at h; cases h
      | ok ms =>
          simp only [hm] at h
          cases hg : SyntaxG.matchGroups mr rest (index + 1) rule_name text with
          | error e => simp only [hg] at h; cases h
          | ok tail =>
              simp only [hg, Except.ok.injEq] at h
              subst h
              intro p hp
              rcases List.mem_append.1 hp with hp | hp
              · obtain ⟨q, hq, rfl⟩ := List.mem_map.1 hp
                have := matchImpl_round_trip mr hmr tg.terms text ms hm q hq
                simpa [Node.str] using this
              · exact ih (index + 1) tail hg p hp

theorem matchRule_round_trip (lang : Language) :
    ∀ fuel, OracleRoundTrip (lang.matchRule fuel) := by
  intro fuel
  induction fuel with
  | zero =>
      intro rule_name text l h
      simp [Language.matchRule] at h
  | succ fuel ih =>
      intro rule_name text l h
      simp only [Language.matchRule] at h
      cases hg : lang.get_rule rule_name with
      | none => simp only [hg] at h; cases h
      | some r =>
          simp only [hg] at h
          simp only [Rule.matchR, SyntaxG.matchS] at h
          exact matchGroups_round_trip _ ih _ _ _ _ _ h

/-- C3: every `(leftover, node)` pair yielded by a terminating, fully
resolved run of the root rule's match renders back — leaf literal values
concatenated left to right, then the leftover — to the original input. -/
theorem root_match_round_trip (lang : Language) (fuel : Nat) (text : Str)
    (root : Rule) (hroot : lang.get_rule lang.root_rule = some root)
    (l : List (Str × Node))
    (h : Rule.matchR (lang.matchRule fuel) root text = .ok l) :
    ∀ p ∈ l, Node.str p.2 ++ p.1 = text := by
  simp only [Rule.matchR, SyntaxG.matchS] at h
  exact matchGroups_round_trip _ (matchRule_round_trip lang fuel) _ _ _ _ _ h

theorem root_match_round_trip_witness :
    Node.str (Node.ruleNode "R" 0 [Node.literalNode ['a'], Node.literalNode ['b']])
        ++ ([] : Str)
      = ['a', 'b'] :=
  root_match_round_trip
    (Language.mk
      [("R", Rule.mk "R" (SyntaxG.mk
        [TermGroup.mk [Term.literal ['a'], Term.literal ['b']]]))] "R")
    1 ['a', 'b']
    (Rule.mk "R" (SyntaxG.mk
      [TermGroup.mk [Term.literal ['a'], Term.literal ['b']]]))
    rfl
    [(([] : Str), Node.ruleNode "R" 0 [Node.literalNode ['a'], Node.literalNode ['b']])]
    rfl
    (([] : Str), Node.ruleNode "R" 0 [Node.literalNode ['a'], Node.literalNode ['b']])
    (by simp)

/-! ## Determinism (C8)

Parsing is a pure function of the `Language` value: beyond invoking the same
function twice, we show the stronger congruence that any two languages the
source's `Language.__eq__` deems equal — in particular the same registry, or
the same rules registered in a different dict order — produce identical
parse outcomes on every input. -/

theorem Term.eqT_eq : ∀ {a b : Term}, Term.eqT a b = true → a = b := by
  intro a b h
  cases a <;> cases b <;> simp_all [Term.eqT]

theorem termsEq_eq : ∀ {xs ys : List Term}, termsEq xs ys = true → xs = ys
  | [], [], _ => rfl
  | [], _ :: _, h => by simp [termsEq] at h
  | _ :: _, [], h => by simp [termsEq] at h
  | x :: xs, y :: ys, h => by
      simp only [termsEq, Bool.and_eq_true] at h
      rw [Term.eqT_eq h.1, termsEq_eq h.2]

theorem TermGroup.eqTG_eq {a b : TermGroup} (h : TermGroup.eqTG a b = true) :
    a = b := by
  cases a
  cases b
  simp only [TermGroup.eqTG] at h
  rw [termsEq_eq h]

theorem termGroupsEq_eq :
    ∀ {xs ys : List TermGroup}, termGroupsEq xs ys = true → xs = ys
  | [], [], _ => rfl
  | [], _ :: _, h => by simp [termGroupsEq] at h
  | _ :: _, [], h => by simp [termGroupsEq] at h
  | x :: xs, y :: ys, h => by
      simp only [termGroupsEq, Bool.and_eq_true] at h
      rw [TermGroup.eqTG_eq h.1, termGroupsEq_eq h.2]

theorem SyntaxG.eqS_eq {a b : SyntaxG} (h : SyntaxG.eqS a b = true) : a = b := by
  cases a
  cases b
  simp only [SyntaxG.eqS] at h
  rw [termGroupsEq_eq h]

theorem Rule.eqR_eq {a b : Rule} (h : Rule.eqR a b = true) : a = b := by
  cases a
  cases b
  simp only [Rule.eqR, Bool.and_eq_true, beq_iff_eq] at h
  rw [h.1, SyntaxG.eqS_eq h.2]

theorem lookup_some_mem_keys :
    ∀ (d : List (RuleName × Rule)) (k : RuleName) (r : Rule),
      d.lookup k = some r → k ∈ d.map Prod.fst := by
  intro d
  induction d with
  | nil => intro k r h; simp [List.lookup] at h
  | cons p t ih =>
      intro k r h
      rcases p with ⟨k0, r0⟩
      simp only [List.lookup] at h
      cases hk : k == k0 with
      | true =>
          simp only [List.map, List.mem_cons]
          exact Or.inl (eq_of_beq hk)
      | false =>
          simp only [hk] at h
          simp only [List.map, List.mem_cons]
          exact Or.inr (ih k r h)

theorem rulesEq_lookup {d1 d2 : List (RuleName × Rule)}
    (h : rulesEq d1 d2 = true) : ∀ k, d1.lookup k = d2.lookup k := by
  intro k
  have hall := List.all_eq_true.1 h
  cases h1 : d1.lookup k with
  | some r1 =>
      have hk : k ∈ d1.map Prod.fst ++ d2.map Prod.fst :=
        List.mem_append_left _ (lookup_some_mem_keys d1 k r1 h1)
      have hp := hall k hk
      cases h2 : d2.lookup k with
      | none => simp only [h1, h2] at hp; cases hp
      | some r2 =>
          simp only [h1, h2] at hp
          rw [Rule.eqR_eq hp]
  | none =>
      cases h2 : d2.lookup k with
      | none => rfl
      | some r2 =>
          have hk : k ∈ d1.map Prod.fst ++ d2.map Prod.fst :=
            List.mem_append_right _ (lookup_some_mem_keys d2 k r2 h2)
          have hp := hall k hk
          simp only [h1, h2] at hp
          cases hp

theorem matchRule_congr {lang1 lang2 : Language}
    (h : Language.eqL lang1 lang2 = true) :
    ∀ (fuel : Nat) (rule_name : RuleName) (text : Str),
      lang1.matchRule fuel rule_name text
        = lang2.matchRule fuel rule_name text := by
  have h' := h
  simp only [Language.eqL, Bool.and_eq_true, beq_iff_eq] at h'
  have hrules := rulesEq_lookup h'.2
  intro fuel
  induction fuel with
  | zero => intro rule_name text; rfl
  | succ fuel ih =>
      intro rule_name text
      have hor : lang1.matchRule fuel = lang2.matchRule fuel :=
        funext fun rn => funext fun t => ih rn t
      simp only [Language.matchRule, Language.get_rule, hrules rule_name, hor]

/-- C8: parsing is deterministic: the parse outcome is a function of the
(structural content of the) language and the input alone, so two runs of
`Language.parse` against `Language.__eq__`-equal languages — in particular
against the very same unmodified language — give identical outcomes:
the same tree or the same error kind. -/
theorem parse_deterministic_on_equal_languages (lang1 lang2 : Language)
    (h : Language.eqL lang1 lang2 = true) (fuel : Nat) (text : Str) :
    lang1.parse fuel text = lang2.parse fuel text := by
  have h' := h
  simp only [Language.eqL, Bool.and_eq_true, beq_iff_eq] at h'
  have hroot : lang1.root_rule = lang2.root_rule := h'.1
  have hrules := rulesEq_lookup h'.2
  have hor : lang1.matchRule fuel = lang2.matchRule fuel :=
    funext fun rn => funext fun t => matchRule_congr h fuel rn t
  simp only [Language.parse, Language.parseAll, Language.get_rule, hroot,
    hrules, hor]

theorem parse_deterministic_on_equal_languages_witness :
    Language.parse
        (Language.mk
          [("A", Rule.mk "A" (SyntaxG.mk [TermGroup.mk [Term.literal ['a']]])),
           ("B", Rule.mk "B" (SyntaxG.mk [TermGroup.mk [Term.literal ['b']]]))]
          "A") 2 ['a']
      = Language.parse
          (Language.mk
            [("B", Rule.mk "B" (SyntaxG.mk [TermGroup.mk [Term.literal ['b']]])),
             ("A", Rule.mk "A" (SyntaxG.mk [TermGroup.mk [Term.literal ['a']]]))]
            "A") 2 ['a'] :=
  parse_deterministic_on_equal_languages
    (Language.mk
      [("A", Rule.mk "A" (SyntaxG.mk [TermGroup.mk [Term.literal ['a']]])),
       ("B", Rule.mk "B" (SyntaxG.mk [TermGroup.mk [Term.literal ['b']]]))]
      "A")
    (Language.mk
      [("B", Rule.mk "B" (SyntaxG.mk [TermGroup.mk [Term.literal ['b']]])),
       ("A", Rule.mk "A" (SyntaxG.mk [TermGroup.mk [Term.literal ['a']]]))]
      "A")
    (by decide) 2 ['a']

end BNF
